import Mathlib

/-!
Shallow embedding of `src/data/exploratory_data_anaysis.py`: the loader's
email → user_id encoding loop, the per-user interaction statistics
(median / mean / max and the histogram bin computation), and the article
statistics (deduplication, left join, value counts, most-viewed article).
Machine floats used by pandas/numpy are modelled by exact integer
arithmetic (truncating division); the claims below only exercise inputs
where the two agree.
-/

namespace EDA

/-- One row of the interactions table after loading: the `email` column has
been replaced by the encoded integer `user_id`, `article_id` is coerced to
an integer. -/
structure Interaction where
  article_id : Int
  user_id : Nat
deriving DecidableEq

/-- One row of the articles catalog: an `article_id` plus opaque catalog
metadata (modelled as a single string payload, passed through unmodified). -/
structure ArticleRow where
  article_id : Int
  meta : String
deriving DecidableEq

/-- Count occurrences of `v` in a list (pandas `value_counts` / groupby
`count` primitive). -/
def countOcc {α : Type} [DecidableEq α] (v : α) : List α → Nat
  | [] => 0
  | a :: rest => (if a = v then 1 else 0) + countOcc v rest

/-- First-appearance deduplication, skipping values already in `seen`
(pandas `Series.unique`, and the membership test of the encoder loop). -/
def uniqueFrom {α : Type} [DecidableEq α] : List α → List α → List α
  | _, [] => []
  | seen, a :: rest =>
    if a ∈ seen then uniqueFrom seen rest
    else a :: uniqueFrom (a :: seen) rest

/-- First-appearance deduplication keyed by `key` (pandas
`drop_duplicates(subset=[k], keep='first')`). -/
def dedupByKey {α β : Type} [DecidableEq β] (key : α → β) : List β → List α → List α
  | _, [] => []
  | seen, a :: rest =>
    if key a ∈ seen then dedupByKey key seen rest
    else a :: dedupByKey key (key a :: seen) rest

/-- Index of the first occurrence of `e` in `l` (length of the prefix of
elements different from `e`). -/
def rank {α : Type} [DecidableEq α] : List α → α → Nat
  | [], _ => 0
  | a :: rest, e => if a = e then 0 else rank rest e + 1

/-- Dictionary lookup in the email encoder (first matching key). -/
def lookupEnc : List (String × Nat) → String → Option Nat
  | [], _ => none
  | (k, v) :: rest, e => if e = k then some v else lookupEnc rest e

/-- The encoder loop of `load_data` (lines 41–49 of the source): scan the
email column in row order; an unseen email is appended to the encoder with
the current counter value and the counter is incremented; every row gets
its email's encoder value appended to the `user_ids` list.  Returns
`((encoder, counter), user_ids)`. -/
def encodeFrom : List (String × Nat) → Nat → List String → (List (String × Nat) × Nat) × List Nat
  | enc, n, [] => ((enc, n), [])
  | enc, n, e :: rest =>
    match lookupEnc enc e with
    | some i =>
      let r := encodeFrom enc n rest
      (r.1, i :: r.2)
    | none =>
      let r := encodeFrom (enc ++ [(e, n)]) (n + 1) rest
      (r.1, n :: r.2)

/-- The whole encoding pass of `load_data`: empty encoder, counter starting
at 0. -/
def encodeEmails (emails : List String) : (List (String × Nat) × Nat) × List Nat :=
  encodeFrom [] 0 emails

/-- The canonical encoder that maps the `i`-th element of the list to id
`n + i`: used to state what the encoder loop builds. -/
def canonFrom : Nat → List String → List (String × Nat)
  | _, [] => []
  | n, e :: rest => (e, n) :: canonFrom (n + 1) rest

/-- Distinct emails in order of first appearance. -/
def first_seen (l : List String) : List String :=
  uniqueFrom [] l

/-- Replace the email column of the raw interaction rows `(email,
article_id)` by the encoded `user_id` column (lines 51–52 of the source). -/
def encode_interactions (raw : List (String × Int)) : List Interaction :=
  List.zipWith (fun r u => Interaction.mk r.2 u) raw (encodeEmails (raw.map Prod.fst)).2

/-- `articles.drop_duplicates(subset=['article_id'], inplace=True)`:
keep the first row for each article id. -/
def drop_duplicates (arts : List ArticleRow) : List ArticleRow :=
  dedupByKey (fun a => a.article_id) [] arts

/-- Metadata lookup against `articles.set_index('article_id')` (the
articles are deduplicated before the join, so the first match is the only
match). -/
def articleMeta (arts : List ArticleRow) (id : Int) : Option String :=
  (arts.find? (fun a => a.article_id == id)).map (fun a => a.meta)

/-- `interactions.join(articles.set_index('article_id'), on='article_id',
how='left')`: every interaction row is kept, paired with the metadata of
its article when the catalog has it and `none` otherwise. -/
def leftJoin (inter : List Interaction) (arts : List ArticleRow) : List (Interaction × Option String) :=
  inter.map (fun r => (r, articleMeta arts r.article_id))

/-- Ordering used by `value_counts`: descending by count. -/
def popLE (a b : Int × Nat) : Prop := b.2 ≤ a.2

instance : DecidableRel popLE := fun _ b => Nat.decLe b.2 _

instance : IsTotal (Int × Nat) popLE :=
  ⟨fun a b => Nat.le_total b.2 a.2⟩

instance : IsTrans (Int × Nat) popLE :=
  ⟨fun _ _ _ h1 h2 => Nat.le_trans h2 h1⟩

/-- `Series.value_counts()`: one `(value, count)` pair per distinct value,
sorted descending by count. -/
def value_counts (l : List Int) : List (Int × Nat) :=
  List.insertionSort popLE ((uniqueFrom [] l).map (fun v => (v, countOcc v l)))

/-- The six scalar outputs of `articles_statistics`. -/
structure ArticleStats where
  number_of_unique_articles : Nat
  number_of_unique_articles_with_interaction : Nat
  number_of_unique_users : Nat
  number_of_user_article_interactions : Nat
  most_viewed : Option (Int × Nat)
deriving DecidableEq

/-- `articles_statistics(articles, interactions)` (lines 106–123): the
in-place deduplication of `articles` is modelled by state passing — the
function returns the final `(articles, interactions)` pair alongside the
computed statistics.  `most_viewed` is the head of the popularity ranking
(`none` models the IndexError on an empty ranking). -/
def articles_statistics (articles : List ArticleRow) (interactions : List Interaction) :
    (List ArticleRow × List Interaction) × ArticleStats :=
  let articles2 := drop_duplicates articles
  let df := leftJoin interactions articles2
  let article_popularity := value_counts (df.map (fun p => p.1.article_id))
  (⟨articles2, interactions⟩,
   ⟨articles2.length,
    (dedupByKey (fun p => p.1.article_id) [] df).length,
    (uniqueFrom [] (interactions.map (fun r => r.user_id))).length,
    interactions.length,
    article_popularity.head?⟩)

/-- Ascending sort on naturals (`numpy.sort`, and the sort used inside
`Series.median`). -/
def sortAscN (l : List Nat) : List Nat :=
  List.insertionSort (fun a b => a ≤ b) l

/-- `df.groupby('user_id').article_id.count()`: one `(user_id, count)` pair
per distinct user, with the groupby keys in ascending order. -/
def user_interaction_count (inter : List Interaction) : List (Nat × Nat) :=
  (sortAscN (uniqueFrom [] (inter.map (fun r => r.user_id)))).map
    (fun u => (u, countOcc u (inter.map (fun r => r.user_id))))

/-- The values of the per-user interaction count distribution. -/
def user_interaction_values (inter : List Interaction) : List Nat :=
  (user_interaction_count inter).map Prod.snd

/-- `Series.median().astype(int)`: middle of the sorted values for odd
length, truncated average of the two middles for even length. -/
def medianInt (l : List Nat) : Nat :=
  let s := sortAscN l
  if l.length % 2 = 1 then s.getD (l.length / 2) 0
  else (s.getD (l.length / 2 - 1) 0 + s.getD (l.length / 2) 0) / 2

/-- `Series.mean().astype(int)`: truncated mean. -/
def meanInt (l : List Nat) : Nat := l.sum / l.length

/-- `Series.max()` over natural counts. -/
def maxVal (l : List Nat) : Nat := l.foldr max 0

/-- `bins = numpy.sort(df.unique())` (line 79): the histogram bin edges are
the distinct per-user counts, sorted ascending. -/
def histogram_bins (counts : List Nat) : List Nat :=
  sortAscN (uniqueFrom [] counts)

/-- `matplotlib.axes.Axes.hist` with a sequence of `k` bin edges draws
`k - 1` bins (consecutive edge pairs). -/
def matplotlib_bin_count (edges : List Nat) : Nat := edges.length - 1

/-- The article table of the spec's concrete scenario. -/
def scenarioArticles : List ArticleRow := [⟨1, ""⟩, ⟨1, ""⟩, ⟨2, ""⟩]

/-- The raw `(email, article_id)` interaction rows of the spec's concrete
scenario. -/
def scenarioRaw : List (String × Int) := [("a@x", 1), ("b@x", 1), ("a@x", 2)]

/-- A raw CSV file as parsed by `pandas.read_csv`: named columns and rows of
string cells (cell `j` of a row belongs to column `j`). -/
structure RawTable where
  columns : List String
  rows : List (List String)

/-- Failures of the loader, tagged by the step that raises them:
`missingColumn` is the KeyError of `DataFrame.drop(columns=[...])`,
`missingField` is a missing column at access/coercion time, `badInt` is a
failed integer coercion. -/
inductive LoadError where
  | missingColumn : String → LoadError
  | missingField : String → LoadError
  | badInt : String → LoadError
deriving DecidableEq

/-- `DataFrame.drop(columns=[c], inplace=True)`: removes column `c` from the
header and every row, and raises (`missingColumn`) when `c` is absent. -/
def dropColumn (c : String) (t : RawTable) : Except LoadError RawTable :=
  if c ∈ t.columns then
    Except.ok ⟨t.columns.eraseIdx (rank t.columns c),
      t.rows.map (fun r => r.eraseIdx (rank t.columns c))⟩
  else Except.error (LoadError.missingColumn c)

/-- Column access `df[c]`: the list of that column's cells, failing when the
column is absent. -/
def getColumn (c : String) (t : RawTable) : Except LoadError (List String) :=
  if c ∈ t.columns then
    Except.ok (t.rows.map (fun r => r.getD (rank t.columns c) ""))
  else Except.error (LoadError.missingField c)

/-- `astype(int)` on one cell (article ids are modelled as integer
literals). -/
def parseArticleId (s : String) : Except LoadError Int :=
  match s.toInt? with
  | some n => Except.ok n
  | none => Except.error (LoadError.badInt s)

/-- `load_data` on two already-parsed CSV files (lines 33–54 of the source):
drop the `Unnamed: 0` column from each table, coerce the interaction
`article_id` column to integers, encode the `email` column, and return the
articles table together with the interactions rows carrying `user_id`
instead of `email`. -/
def load_data_model (articlesRaw interactionsRaw : RawTable) :
    Except LoadError (RawTable × List Interaction) := do
  let articles ← dropColumn "Unnamed: 0" articlesRaw
  let interactions0 ← dropColumn "Unnamed: 0" interactionsRaw
  let aidStrs ← getColumn "article_id" interactions0
  let aids ← aidStrs.mapM parseArticleId
  let emails ← getColumn "email" interactions0
  Except.ok (articles, List.zipWith (fun a u => Interaction.mk a u) aids (encodeEmails emails).2)

theorem lookupEnc_canonFrom (e : String) :
    ∀ (s : List String) (n : Nat),
      lookupEnc (canonFrom n s) e = if e ∈ s then some (n + rank s e) else none := by
  intro s
  induction s with
  | nil =>
    intro n
    simp [canonFrom, lookupEnc]
  | cons a t ih =>
    intro n
    by_cases h : e = a
    · subst h
      simp [canonFrom, lookupEnc, rank]
    · have hne : ¬(a = e) := fun hh => h hh.symm
      rw [canonFrom, lookupEnc, if_neg h, ih (n + 1)]
      by_cases hm : e ∈ t
      · rw [if_pos hm, if_pos (List.mem_cons_of_mem a hm)]
        have hr : rank (a :: t) e = rank t e + 1 := by simp [rank, hne]
        rw [hr]
        congr 1
        omega
      · rw [if_neg hm, if_neg (by simp [h, hm])]

theorem canonFrom_append :
    ∀ (s t : List String) (n : Nat),
      canonFrom n (s ++ t) = canonFrom n s ++ canonFrom (n + s.length) t := by
  intro s
  induction s with
  | nil =>
    intro t n
    simp [canonFrom]
  | cons a s ih =>
    intro t n
    have h1 : canonFrom n (a :: (s ++ t)) = (a, n) :: canonFrom (n + 1) (s ++ t) := rfl
    have h2 : canonFrom n (a :: s) = (a, n) :: canonFrom (n + 1) s := rfl
    rw [List.cons_append, h1, h2, List.cons_append, ih t (n + 1), List.length_cons,
      show n + (s.length + 1) = n + 1 + s.length by omega]

theorem canonFrom_map_fst :
    ∀ (l : List String) (n : Nat), (canonFrom n l).map Prod.fst = l := by
  intro l
  induction l with
  | nil => intro n; simp [canonFrom]
  | cons a t ih => intro n; simp [canonFrom, ih]

theorem mem_uniqueFrom {α : Type} [DecidableEq α] (x : α) :
    ∀ (l seen : List α), x ∈ uniqueFrom seen l ↔ (x ∈ l ∧ x ∉ seen) := by
  intro l
  induction l with
  | nil =>
    intro seen
    simp [uniqueFrom]
  | cons a t ih =>
    intro seen
    by_cases h : a ∈ seen
    · rw [uniqueFrom, if_pos h, ih]
      constructor
      · rintro ⟨hx, hs⟩
        exact ⟨List.mem_cons_of_mem a hx, hs⟩
      · rintro ⟨hx, hs⟩
        rcases List.mem_cons.mp hx with rfl | hx
        · exact absurd h hs
        · exact ⟨hx, hs⟩
    · rw [uniqueFrom, if_neg h]
      simp only [List.mem_cons, ih, List.mem_cons]
      constructor
      · rintro (rfl | ⟨hx, hs⟩)
        · exact ⟨Or.inl rfl, h⟩
        · exact ⟨Or.inr hx, fun hseen => hs (Or.inr hseen)⟩
      · rintro ⟨hx, hs⟩
        by_cases hxa : x = a
        · exact Or.inl hxa
        · rcases hx with rfl | hx
          · exact Or.inl rfl
          · exact Or.inr ⟨hx, fun hmem => (hmem.elim hxa hs)⟩

theorem uniqueFrom_nodup {α : Type} [DecidableEq α] :
    ∀ (l seen : List α), (uniqueFrom seen l).Nodup := by
  intro l
  induction l with
  | nil =>
    intro seen
    simp [uniqueFrom]
  | cons a t ih =>
    intro seen
    by_cases h : a ∈ seen
    · rw [uniqueFrom, if_pos h]
      exact ih seen
    · rw [uniqueFrom, if_neg h]
      refine List.nodup_cons.mpr ⟨?_, ih (a :: seen)⟩
      intro hmem
      exact ((mem_uniqueFrom a t (a :: seen)).mp hmem).2 (List.mem_cons_self a seen)

theorem uniqueFrom_congr {α : Type} [DecidableEq α] :
    ∀ (l seen1 seen2 : List α), (∀ x, x ∈ seen1 ↔ x ∈ seen2) →
      uniqueFrom seen1 l = uniqueFrom seen2 l := by
  intro l
  induction l with
  | nil =>
    intro seen1 seen2 _
    simp [uniqueFrom]
  | cons a t ih =>
    intro seen1 seen2 hss
    by_cases h : a ∈ seen1
    · rw [uniqueFrom, if_pos h, uniqueFrom, if_pos ((hss a).mp h)]
      exact ih seen1 seen2 hss
    · rw [uniqueFrom, if_neg h, uniqueFrom, if_neg (fun hmem => h ((hss a).mpr hmem))]
      rw [ih (a :: seen1) (a :: seen2) (by intro x; simp [hss x])]

theorem rank_append_left {α : Type} [DecidableEq α] (e : α) :
    ∀ (s t : List α), e ∈ s → rank (s ++ t) e = rank s e := by
  intro s
  induction s with
  | nil =>
    intro t h
    exact absurd h (List.not_mem_nil e)
  | cons a s ih =>
    intro t h
    by_cases ha : a = e
    · simp [rank, ha]
    · rw [List.cons_append, rank, if_neg ha, rank, if_neg ha,
        ih t ((List.mem_cons.mp h).resolve_left (fun hh => ha hh.symm))]

theorem rank_append_right {α : Type} [DecidableEq α] (e : α) :
    ∀ (s t : List α), e ∉ s → rank (s ++ t) e = s.length + rank t e := by
  intro s
  induction s with
  | nil =>
    intro t _
    simp [rank]
  | cons a s ih =>
    intro t h
    have ha : ¬(a = e) := fun hh => h (hh ▸ List.mem_cons_self a s)
    rw [List.cons_append, rank, if_neg ha, ih t (fun hm => h (List.mem_cons_of_mem a hm)),
      List.length_cons]
    omega

theorem rank_inj {α : Type} [DecidableEq α] :
    ∀ (L : List α) (e f : α), e ∈ L → f ∈ L → rank L e = rank L f → e = f := by
  intro L
  induction L with
  | nil =>
    intro e f he _ _
    exact absurd he (List.not_mem_nil e)
  | cons a t ih =>
    intro e f he hf hr
    by_cases hae : a = e
    · by_cases haf : a = f
      · exact hae ▸ haf
      · rw [rank, if_pos hae, rank, if_neg haf] at hr
        omega
    · by_cases haf : a = f
      · rw [rank, if_neg hae, rank, if_pos haf] at hr
        omega
      · rw [rank, if_neg hae, rank, if_neg haf] at hr
        exact ih e f ((List.mem_cons.mp he).resolve_left (fun hh => hae hh.symm))
          ((List.mem_cons.mp hf).resolve_left (fun hh => haf hh.symm)) (by omega)

theorem encodeFrom_canon :
    ∀ (rest seen : List String),
      encodeFrom (canonFrom 0 seen) seen.length rest
      = ((canonFrom 0 (seen ++ uniqueFrom seen rest), (seen ++ uniqueFrom seen rest).length),
         rest.map (fun e => rank (seen ++ uniqueFrom seen rest) e)) := by
  intro rest
  induction rest with
  | nil =>
    intro seen
    simp [encodeFrom, uniqueFrom]
  | cons e rest ih =>
    intro seen
    by_cases he : e ∈ seen
    · have hl : lookupEnc (canonFrom 0 seen) e = some (rank seen e) := by
        rw [lookupEnc_canonFrom, if_pos he, Nat.zero_add]
      have hU : uniqueFrom seen (e :: rest) = uniqueFrom seen rest := by
        rw [uniqueFrom, if_pos he]
      rw [encodeFrom, hl]
      rw [ih seen, hU, List.map_cons, rank_append_left e seen _ he]
    · have hl : lookupEnc (canonFrom 0 seen) e = none := by
        rw [lookupEnc_canonFrom, if_neg he]
      have henc : canonFrom 0 seen ++ [(e, seen.length)] = canonFrom 0 (seen ++ [e]) := by
        rw [canonFrom_append]
        simp [canonFrom]
      have hlen : seen.length + 1 = (seen ++ [e]).length := by simp
      have hU1 : uniqueFrom (seen ++ [e]) rest = uniqueFrom (e :: seen) rest :=
        uniqueFrom_congr rest (seen ++ [e]) (e :: seen)
          (by intro x; simp [List.mem_append, List.mem_cons, or_comm])
      have hlist : seen ++ uniqueFrom seen (e :: rest)
          = (seen ++ [e]) ++ uniqueFrom (seen ++ [e]) rest := by
        rw [uniqueFrom, if_neg he, hU1, List.append_assoc, List.singleton_append]
      rw [encodeFrom, hl, henc, hlen, ih (seen ++ [e]), List.map_cons, ← hlist]
      have hhead : rank (seen ++ uniqueFrom seen (e :: rest)) e = seen.length := by
        rw [rank_append_right e seen _ he, uniqueFrom, if_neg he, rank, if_pos rfl,
          Nat.add_zero]
      rw [hhead]

theorem encodeEmails_spec (emails : List String) :
    encodeEmails emails
    = ((canonFrom 0 (first_seen emails), (first_seen emails).length),
       emails.map (fun e => rank (first_seen emails) e)) := by
  have h := encodeFrom_canon emails []
  simpa [encodeEmails, first_seen, canonFrom] using h

theorem uniqueFrom_map_inj {α β : Type} [DecidableEq α] [DecidableEq β] (f : α → β) :
    ∀ (l seen : List α),
      (∀ x y, (x ∈ l ∨ x ∈ seen) → (y ∈ l ∨ y ∈ seen) → f x = f y → x = y) →
      uniqueFrom (seen.map f) (l.map f) = (uniqueFrom seen l).map f := by
  intro l
  induction l with
  | nil =>
    intro seen _
    simp [uniqueFrom]
  | cons a t ih =>
    intro seen hinj
    have hmem : f a ∈ seen.map f ↔ a ∈ seen := by
      constructor
      · intro hm
        rcases List.mem_map.mp hm with ⟨y, hy, hfy⟩
        rw [hinj a y (Or.inl (List.mem_cons_self a t)) (Or.inr hy) hfy.symm]
        exact hy
      · exact fun hm => List.mem_map_of_mem f hm
    by_cases h : a ∈ seen
    · rw [List.map_cons, uniqueFrom, if_pos (hmem.mpr h), uniqueFrom, if_pos h]
      exact ih seen (fun x y hx hy =>
        hinj x y (hx.imp (List.mem_cons_of_mem a) id) (hy.imp (List.mem_cons_of_mem a) id))
    · rw [List.map_cons, uniqueFrom, if_neg (fun hm => h (hmem.mp hm)), uniqueFrom, if_neg h,
        List.map_cons]
      have : uniqueFrom ((a :: seen).map f) (t.map f) = (uniqueFrom (a :: seen) t).map f := by
        refine ih (a :: seen) (fun x y hx hy => hinj x y ?_ ?_)
        · rcases hx with hx | hx
          · exact Or.inl (List.mem_cons_of_mem a hx)
          · rcases List.mem_cons.mp hx with rfl | hx
            · exact Or.inl (List.mem_cons_self x t)
            · exact Or.inr hx
        · rcases hy with hy | hy
          · exact Or.inl (List.mem_cons_of_mem a hy)
          · rcases List.mem_cons.mp hy with rfl | hy
            · exact Or.inl (List.mem_cons_self y t)
            · exact Or.inr hy
      rw [List.map_cons] at this
      rw [this]

/-- C1: for every interaction log, the loader scans the email column in row
order and assigns the next unused sequential integer, starting at 0, to each
previously-unseen email: the final encoder maps the `i`-th first-seen email
to id `i` (`canonFrom 0 (first_seen emails)`), and the email column is
replaced by the user_id column that holds, for every row, the first-seen
rank of that row's email — one user_id per row. -/
theorem load_data_encoding_assigns_sequential_ids (emails : List String) :
    encodeEmails emails
    = ((canonFrom 0 (first_seen emails), (first_seen emails).length),
       emails.map (fun e => rank (first_seen emails) e))
    ∧ (encodeEmails emails).2.length = emails.length := by
  refine ⟨encodeEmails_spec emails, ?_⟩
  rw [encodeEmails_spec emails]
  exact List.length_map emails _

/-- C2: after loading, the number of distinct encoded user_id values equals
the number of distinct raw email strings, the final encoder holds each email
exactly once (write-once, never reassigned), and every row's user_id is the
value of one fixed function of that row's email (each email maps to exactly
one id). -/
theorem load_data_distinct_ids_eq_distinct_emails (emails : List String) :
    (uniqueFrom [] (encodeEmails emails).2).length = (uniqueFrom [] emails).length
    ∧ (((encodeEmails emails).1.1).map Prod.fst).Nodup
    ∧ (∀ i : Nat, ((encodeEmails emails).2)[i]?
        = (emails[i]?).map (fun e => rank (first_seen emails) e)) := by
  refine ⟨?_, ?_, ?_⟩
  · rw [encodeEmails_spec emails]
    have hinj : ∀ x y, (x ∈ emails ∨ x ∈ ([] : List String)) →
        (y ∈ emails ∨ y ∈ ([] : List String)) →
        rank (first_seen emails) x = rank (first_seen emails) y → x = y := by
      intro x y hx hy hr
      have hx' : x ∈ emails := hx.resolve_right (List.not_mem_nil x)
      have hy' : y ∈ emails := hy.resolve_right (List.not_mem_nil y)
      have hxf : x ∈ first_seen emails :=
        (mem_uniqueFrom x emails []).mpr ⟨hx', List.not_mem_nil x⟩
      have hyf : y ∈ first_seen emails :=
        (mem_uniqueFrom y emails []).mpr ⟨hy', List.not_mem_nil y⟩
      exact rank_inj (first_seen emails) x y hxf hyf hr
    have h := uniqueFrom_map_inj (fun e => rank (first_seen emails) e) emails [] hinj
    rw [List.map_nil] at h
    rw [h, List.length_map]
  · rw [encodeEmails_spec emails, canonFrom_map_fst]
    exact uniqueFrom_nodup emails []
  · intro i
    rw [encodeEmails_spec emails]
    exact List.getElem?_map ..

/-- C3: on the concrete scenario — articles `[{1}, {1}, {2}]`, interactions
`[(a@x, 1), (b@x, 1), (a@x, 2)]` — the pipeline yields deduplicated article
count 2, distinct user count 2, total interaction count 3, most-viewed
article 1 with 2 views, and the encoder `{a@x ↦ 0, b@x ↦ 1}`. -/
theorem scenario_pipeline_outputs :
    (articles_statistics scenarioArticles
      (encode_interactions scenarioRaw)).2.number_of_unique_articles = 2
    ∧ (articles_statistics scenarioArticles
      (encode_interactions scenarioRaw)).2.number_of_unique_users = 2
    ∧ (articles_statistics scenarioArticles
      (encode_interactions scenarioRaw)).2.number_of_user_article_interactions = 3
    ∧ (articles_statistics scenarioArticles
      (encode_interactions scenarioRaw)).2.most_viewed = some (1, 2)
    ∧ (encodeEmails (scenarioRaw.map Prod.fst)).1.1 = [("a@x", 0), ("b@x", 1)] :=
  ⟨rfl, rfl, rfl, rfl, rfl⟩

theorem dedupByKey_eq_self {α β : Type} [DecidableEq β] (key : α → β) :
    ∀ (l : List α) (seen : List β), (l.map key).Nodup → (∀ a ∈ l, key a ∉ seen) →
      dedupByKey key seen l = l := by
  intro l
  induction l with
  | nil =>
    intro seen _ _
    rfl
  | cons a t ih =>
    intro seen hnd hs
    have ha : key a ∉ seen := hs a (List.mem_cons_self a t)
    rw [dedupByKey, if_neg ha]
    have hhead : key a ∉ t.map key := (List.nodup_cons.mp (List.map_cons key a t ▸ hnd)).1
    rw [ih (key a :: seen) (List.nodup_cons.mp (List.map_cons key a t ▸ hnd)).2 ?_]
    intro b hb hmem
    rcases List.mem_cons.mp hmem with hk | hk
    · exact hhead (hk ▸ List.mem_map_of_mem key hb)
    · exact hs b (List.mem_cons_of_mem a hb) hk

/-- C6: deduplication by article_id keeping the first occurrence is
idempotent — on any article table whose article_id column is already
duplicate-free, `drop_duplicates` is the identity. -/
theorem drop_duplicates_idempotent_on_nodup (arts : List ArticleRow)
    (h : (arts.map (fun a => a.article_id)).Nodup) :
    drop_duplicates arts = arts := by
  show dedupByKey (fun a => a.article_id) [] arts = arts
  exact dedupByKey_eq_self (fun a => a.article_id) arts [] h
    (fun a _ => List.not_mem_nil a.article_id)

/-- Witness for C6 at a concrete duplicate-free article table. -/
theorem drop_duplicates_idempotent_on_nodup_witness :
    (([⟨1, "m"⟩, ⟨2, "n"⟩] : List ArticleRow).map (fun a => a.article_id)).Nodup
    ∧ drop_duplicates [⟨1, "m"⟩, ⟨2, "n"⟩] = [⟨1, "m"⟩, ⟨2, "n"⟩] :=
  ⟨by decide, drop_duplicates_idempotent_on_nodup [⟨1, "m"⟩, ⟨2, "n"⟩] (by decide)⟩

theorem countOcc_pos {α : Type} [DecidableEq α] (v : α) :
    ∀ l : List α, v ∈ l → 1 ≤ countOcc v l := by
  intro l
  induction l with
  | nil =>
    intro h
    exact absurd h (List.not_mem_nil v)
  | cons a t ih =>
    intro h
    rw [countOcc]
    by_cases ha : a = v
    · rw [if_pos ha]
      omega
    · rw [if_neg ha]
      have hv : v ∈ t := (List.mem_cons.mp h).resolve_left (fun hh => ha hh.symm)
      have := ih hv
      omega

theorem countOcc_eq_length {α : Type} [DecidableEq α] (v : α) :
    ∀ l : List α, (∀ x ∈ l, x = v) → countOcc v l = l.length := by
  intro l
  induction l with
  | nil =>
    intro _
    rfl
  | cons a t ih =>
    intro h
    rw [countOcc, if_pos (h a (List.mem_cons_self a t)),
      ih (fun x hx => h x (List.mem_cons_of_mem a hx)), List.length_cons]
    omega

theorem value_counts_mem (l : List Int) (v : Int) (hv : v ∈ l) :
    (v, countOcc v l) ∈ value_counts l := by
  have hm : (v, countOcc v l) ∈ (uniqueFrom [] l).map (fun w => (w, countOcc w l)) :=
    List.mem_map_of_mem _ ((mem_uniqueFrom v l []).mpr ⟨hv, List.not_mem_nil v⟩)
  exact ((List.perm_insertionSort popLE _).mem_iff).mpr hm

theorem value_counts_head (l : List Int) (h : l ≠ []) :
    ∃ v c tl, value_counts l = (v, c) :: tl
      ∧ v ∈ l ∧ c = countOcc v l
      ∧ ∀ w ∈ l, countOcc w l ≤ c := by
  have hperm : (value_counts l).Perm ((uniqueFrom [] l).map (fun v => (v, countOcc v l))) :=
    List.perm_insertionSort popLE _
  have hsorted : List.Sorted popLE (value_counts l) := List.sorted_insertionSort popLE _
  have hne : value_counts l ≠ [] := by
    intro hnil
    have h2 : ((uniqueFrom [] l).map (fun v => (v, countOcc v l))).Perm [] :=
      (hnil ▸ hperm).symm
    have h3 := h2.eq_nil
    rcases List.exists_cons_of_ne_nil h with ⟨x, xs, rfl⟩
    have hx : x ∈ uniqueFrom [] (x :: xs) :=
      (mem_uniqueFrom x (x :: xs) []).mpr ⟨List.mem_cons_self x xs, List.not_mem_nil x⟩
    have : (x, countOcc x (x :: xs)) ∈ ([] : List (Int × Nat)) :=
      h3 ▸ List.mem_map_of_mem _ hx
    exact absurd this (List.not_mem_nil _)
  rcases List.exists_cons_of_ne_nil hne with ⟨hd, tl, heq⟩
  have hhd : hd ∈ (uniqueFrom [] l).map (fun v => (v, countOcc v l)) :=
    hperm.mem_iff.mp (heq ▸ List.mem_cons_self hd tl)
  rcases List.mem_map.mp hhd with ⟨v, hv, hveq⟩
  refine ⟨v, countOcc v l, tl, ?_, ((mem_uniqueFrom v l []).mp hv).1, rfl, ?_⟩
  · rw [heq, hveq]
  · intro w hw
    have hwmem : (w, countOcc w l) ∈ value_counts l :=
      hperm.mem_iff.mpr
        (List.mem_map_of_mem _ ((mem_uniqueFrom w l []).mpr ⟨hw, List.not_mem_nil w⟩))
    rw [heq] at hwmem hsorted
    rcases List.mem_cons.mp hwmem with hwh | hwt
    · have : countOcc w l = hd.2 := congrArg Prod.snd hwh
      rw [this, ← hveq]
    · have hle : popLE hd (w, countOcc w l) :=
        (List.sorted_cons.mp hsorted).1 _ hwt
      have : countOcc w l ≤ hd.2 := hle
      rw [← hveq] at this
      exact this

theorem leftJoin_map_article_id (inter : List Interaction) (arts : List ArticleRow) :
    (leftJoin inter arts).map (fun p => p.1.article_id)
      = inter.map (fun r => r.article_id) := by
  simp only [leftJoin, List.map_map]
  rfl

theorem articles_statistics_most_viewed (arts : List ArticleRow) (inter : List Interaction) :
    (articles_statistics arts inter).2.most_viewed
      = (value_counts (inter.map (fun r => r.article_id))).head? := by
  show (value_counts
      ((leftJoin inter (drop_duplicates arts)).map (fun p => p.1.article_id))).head? = _
  rw [leftJoin_map_article_id]

/-- C5: for every non-empty interactions table, the reported most-viewed
article is the head of the popularity ranking: its view count is the count
of its article_id in the undeduplicated interaction log, that article_id
occurs in the log, and no article_id of the log has a larger count. -/
theorem most_viewed_attains_max (arts : List ArticleRow) (inter : List Interaction)
    (h : inter ≠ []) :
    ∃ v c, (articles_statistics arts inter).2.most_viewed = some (v, c)
      ∧ v ∈ inter.map (fun r => r.article_id)
      ∧ c = countOcc v (inter.map (fun r => r.article_id))
      ∧ ∀ w ∈ inter.map (fun r => r.article_id),
          countOcc w (inter.map (fun r => r.article_id)) ≤ c := by
  have hne : inter.map (fun r => r.article_id) ≠ [] := by
    rcases List.exists_cons_of_ne_nil h with ⟨x, xs, rfl⟩
    simp
  rcases value_counts_head (inter.map (fun r => r.article_id)) hne with
    ⟨v, c, tl, heq, hv, hc, hmax⟩
  refine ⟨v, c, ?_, hv, hc, hmax⟩
  rw [articles_statistics_most_viewed, heq]
  rfl

/-- Witness for C5 at a concrete one-row interaction log. -/
theorem most_viewed_attains_max_witness :
    ∃ v c, (articles_statistics [] [⟨1, 0⟩]).2.most_viewed = some (v, c)
      ∧ v ∈ ([⟨1, 0⟩] : List Interaction).map (fun r => r.article_id)
      ∧ c = countOcc v (([⟨1, 0⟩] : List Interaction).map (fun r => r.article_id))
      ∧ ∀ w ∈ ([⟨1, 0⟩] : List Interaction).map (fun r => r.article_id),
          countOcc w (([⟨1, 0⟩] : List Interaction).map (fun r => r.article_id)) ≤ c :=
  most_viewed_attains_max [] [⟨1, 0⟩] (by decide)

theorem dedupByKey_subset {α β : Type} [DecidableEq β] (key : α → β) :
    ∀ (l : List α) (seen : List β) (x : α), x ∈ dedupByKey key seen l → x ∈ l := by
  intro l
  induction l with
  | nil =>
    intro seen x hx
    exact absurd hx (List.not_mem_nil x)
  | cons a t ih =>
    intro seen x hx
    by_cases h : key a ∈ seen
    · rw [dedupByKey, if_pos h] at hx
      exact List.mem_cons_of_mem a (ih seen x hx)
    · rw [dedupByKey, if_neg h] at hx
      rcases List.mem_cons.mp hx with rfl | hx
      · exact List.mem_cons_self x t
      · exact List.mem_cons_of_mem a (ih (key a :: seen) x hx)

/-- C4: an interaction row whose article_id is absent from the catalog is
not dropped by the left join — the join has one output row per interaction
row, that row carries `none` metadata, the total interaction count is
unaffected, and the row's article_id still has a popularity-ranking entry
counting its occurrences (at least one). -/
theorem unmatched_interaction_retained (arts : List ArticleRow) (inter : List Interaction)
    (r : Interaction) (hr : r ∈ inter)
    (hid : r.article_id ∉ arts.map (fun a => a.article_id)) :
    (leftJoin inter (drop_duplicates arts)).length = inter.length
    ∧ (r, (none : Option String)) ∈ leftJoin inter (drop_duplicates arts)
    ∧ (articles_statistics arts inter).2.number_of_user_article_interactions = inter.length
    ∧ ∃ c, 1 ≤ c ∧ c = countOcc r.article_id (inter.map (fun q => q.article_id))
        ∧ (r.article_id, c)
            ∈ value_counts
              ((leftJoin inter (drop_duplicates arts)).map (fun p => p.1.article_id)) := by
  have hmeta : articleMeta (drop_duplicates arts) r.article_id = none := by
    rw [articleMeta]
    have hfind : (drop_duplicates arts).find? (fun a => a.article_id == r.article_id) = none := by
      rw [List.find?_eq_none]
      intro a ha hbeq
      have haid : a.article_id = r.article_id := by
        exact_mod_cast beq_iff_eq.mp hbeq
      have : a ∈ arts := dedupByKey_subset (fun x => x.article_id) arts [] a
        (show a ∈ dedupByKey (fun x => x.article_id) [] arts from ha)
      exact hid (haid ▸ List.mem_map_of_mem (fun a => a.article_id) this)
    rw [hfind]
    rfl
  refine ⟨List.length_map inter _, ?_, rfl, ?_⟩
  · have hmem := List.mem_map_of_mem
      (fun q => (q, articleMeta (drop_duplicates arts) q.article_id)) hr
    simp only [leftJoin]
    simpa [hmeta] using hmem
  · refine ⟨countOcc r.article_id (inter.map (fun q => q.article_id)), ?_, rfl, ?_⟩
    · exact countOcc_pos r.article_id _ (List.mem_map_of_mem (fun q => q.article_id) hr)
    · rw [leftJoin_map_article_id]
      exact value_counts_mem _ _ (List.mem_map_of_mem (fun q => q.article_id) hr)

/-- Witness for C4: one interaction referencing article 2 against a catalog
holding only article 1. -/
theorem unmatched_interaction_retained_witness :
    (leftJoin [⟨2, 0⟩] (drop_duplicates [⟨1, "m"⟩])).length
        = ([⟨2, 0⟩] : List Interaction).length
    ∧ ((⟨2, 0⟩ : Interaction), (none : Option String))
        ∈ leftJoin [⟨2, 0⟩] (drop_duplicates [⟨1, "m"⟩])
    ∧ (articles_statistics [⟨1, "m"⟩] [⟨2, 0⟩]).2.number_of_user_article_interactions
        = ([⟨2, 0⟩] : List Interaction).length
    ∧ ∃ c, 1 ≤ c
        ∧ c = countOcc (⟨2, 0⟩ : Interaction).article_id
            (([⟨2, 0⟩] : List Interaction).map (fun q => q.article_id))
        ∧ ((⟨2, 0⟩ : Interaction).article_id, c)
            ∈ value_counts
              ((leftJoin [⟨2, 0⟩] (drop_duplicates [⟨1, "m"⟩])).map (fun p => p.1.article_id)) :=
  unmatched_interaction_retained [⟨1, "m"⟩] [⟨2, 0⟩] ⟨2, 0⟩ (by decide) (by decide)

theorem uniqueFrom_nil_of_seen {α : Type} [DecidableEq α] :
    ∀ (l seen : List α), (∀ x ∈ l, x ∈ seen) → uniqueFrom seen l = [] := by
  intro l
  induction l with
  | nil =>
    intro seen _
    rfl
  | cons a t ih =>
    intro seen h
    rw [uniqueFrom, if_pos (h a (List.mem_cons_self a t))]
    exact ih seen (fun x hx => h x (List.mem_cons_of_mem a hx))

theorem uniqueFrom_const {α : Type} [DecidableEq α] (u : α) (l : List α)
    (hne : l ≠ []) (hall : ∀ x ∈ l, x = u) : uniqueFrom [] l = [u] := by
  rcases List.exists_cons_of_ne_nil hne with ⟨a, t, rfl⟩
  have ha : a = u := hall a (List.mem_cons_self a t)
  subst ha
  rw [uniqueFrom, if_neg (List.not_mem_nil a)]
  rw [uniqueFrom_nil_of_seen t [a]
    (fun x hx => (hall x (List.mem_cons_of_mem a hx)) ▸ List.mem_cons_self a [])]

/-- C7: on a non-empty interaction log in which every row has the same
user_id, the per-user count distribution is the single value `inter.length`,
and the computed median, mean and max all equal that single user's
interaction count. -/
theorem single_user_statistics (inter : List Interaction) (u : Nat)
    (hne : inter ≠ []) (hall : ∀ r ∈ inter, r.user_id = u) :
    user_interaction_values inter = [inter.length]
    ∧ medianInt (user_interaction_values inter) = inter.length
    ∧ meanInt (user_interaction_values inter) = inter.length
    ∧ maxVal (user_interaction_values inter) = inter.length := by
  have hmapall : ∀ x ∈ inter.map (fun r => r.user_id), x = u := by
    intro x hx
    rcases List.mem_map.mp hx with ⟨r, hr, rfl⟩
    exact hall r hr
  have hmapne : inter.map (fun r => r.user_id) ≠ [] := by
    rcases List.exists_cons_of_ne_nil hne with ⟨r, t, rfl⟩
    simp
  have huniq : uniqueFrom [] (inter.map (fun r => r.user_id)) = [u] :=
    uniqueFrom_const u _ hmapne hmapall
  have hcount : countOcc u (inter.map (fun r => r.user_id)) = inter.length := by
    rw [countOcc_eq_length u _ hmapall, List.length_map]
  have hsort : sortAscN [u] = [u] := rfl
  have hvals : user_interaction_values inter = [inter.length] := by
    rw [user_interaction_values, user_interaction_count, huniq, hsort,
      List.map_cons, List.map_nil, List.map_cons, List.map_nil]
    rw [show ((u, countOcc u (inter.map fun r => r.user_id)).snd : Nat)
        = countOcc u (inter.map fun r => r.user_id) from rfl, hcount]
  refine ⟨hvals, ?_, ?_, ?_⟩
  · rw [hvals]
    simp [medianInt, sortAscN, List.insertionSort, List.orderedInsert]
  · rw [hvals, meanInt]
    simp
  · rw [hvals, maxVal]
    simp

/-- Witness for C7: two interactions of the single user 7. -/
theorem single_user_statistics_witness :
    user_interaction_values [⟨1, 7⟩, ⟨2, 7⟩] = [([⟨1, 7⟩, ⟨2, 7⟩] : List Interaction).length]
    ∧ medianInt (user_interaction_values [⟨1, 7⟩, ⟨2, 7⟩])
        = ([⟨1, 7⟩, ⟨2, 7⟩] : List Interaction).length
    ∧ meanInt (user_interaction_values [⟨1, 7⟩, ⟨2, 7⟩])
        = ([⟨1, 7⟩, ⟨2, 7⟩] : List Interaction).length
    ∧ maxVal (user_interaction_values [⟨1, 7⟩, ⟨2, 7⟩])
        = ([⟨1, 7⟩, ⟨2, 7⟩] : List Interaction).length :=
  single_user_statistics [⟨1, 7⟩, ⟨2, 7⟩] 7 (by decide) (by decide)

/-- C8 counterexample: with per-user counts `[1, 1, 2]` there are two
distinct observed count values, yet the bin edges `[1, 2]` produce a single
histogram bin — the histogram does not yield one bin per distinct observed
count value. -/
theorem histogram_not_one_bin_per_value :
    matplotlib_bin_count (histogram_bins [1, 1, 2]) = 1
    ∧ (uniqueFrom [] [1, 1, 2] : List Nat).length = 2
    ∧ matplotlib_bin_count (histogram_bins [1, 1, 2])
        ≠ (uniqueFrom [] [1, 1, 2] : List Nat).length := by
  refine ⟨rfl, rfl, ?_⟩
  decide

/-- C8 (amended): the histogram's bin edges are exactly the sorted distinct
values of the per-user counts — one bin EDGE per distinct observed count
value — and the number of drawn bins is the number of distinct observed
count values minus one (not fixed-width bins). -/
theorem histogram_bins_sorted_distinct (counts : List Nat) :
    histogram_bins counts = counts.toFinset.sort (fun a b => a ≤ b)
    ∧ (histogram_bins counts).length = counts.toFinset.card
    ∧ matplotlib_bin_count (histogram_bins counts) = counts.toFinset.card - 1 := by
  have hnd1 : (histogram_bins counts).Nodup :=
    ((List.perm_insertionSort _ _).nodup_iff).mpr (uniqueFrom_nodup counts [])
  have hperm : (histogram_bins counts).Perm (counts.toFinset.sort (fun a b => a ≤ b)) := by
    rw [List.perm_ext_iff_of_nodup hnd1 (Finset.sort_nodup _ _)]
    intro a
    rw [Finset.mem_sort, List.mem_toFinset]
    have h1 : a ∈ histogram_bins counts ↔ a ∈ uniqueFrom [] counts :=
      (List.perm_insertionSort _ _).mem_iff
    rw [h1, mem_uniqueFrom]
    simp
  have heq : histogram_bins counts = counts.toFinset.sort (fun a b => a ≤ b) :=
    List.eq_of_perm_of_sorted hperm (List.sorted_insertionSort _ _) (Finset.sort_sorted _ _)
  have hlen : (histogram_bins counts).length = counts.toFinset.card := by
    rw [heq, Finset.length_sort]
  exact ⟨heq, hlen, by rw [matplotlib_bin_count, hlen]⟩

/-- C9: dropping the `Unnamed: 0` index column fails with a
`missingColumn` error — the error raised only by the column-drop step —
whenever either input table lacks that column, and the whole load returns
that error (so no encoding or statistics run); when both tables contain
the column, both drop steps succeed. -/
theorem load_data_drop_column_failure (a i : RawTable) :
    ("Unnamed: 0" ∉ a.columns →
      load_data_model a i = Except.error (LoadError.missingColumn "Unnamed: 0"))
    ∧ ("Unnamed: 0" ∉ i.columns →
      load_data_model a i = Except.error (LoadError.missingColumn "Unnamed: 0"))
    ∧ ("Unnamed: 0" ∈ a.columns → "Unnamed: 0" ∈ i.columns →
      (∃ t, dropColumn "Unnamed: 0" a = Except.ok t)
      ∧ (∃ t, dropColumn "Unnamed: 0" i = Except.ok t)) := by
  refine ⟨?_, ?_, ?_⟩
  · intro h
    have hd : dropColumn "Unnamed: 0" a
        = Except.error (LoadError.missingColumn "Unnamed: 0") := by
      rw [dropColumn, if_neg h]
    rw [load_data_model, hd]
    rfl
  · intro h
    have hdi : dropColumn "Unnamed: 0" i
        = Except.error (LoadError.missingColumn "Unnamed: 0") := by
      rw [dropColumn, if_neg h]
    by_cases hA : "Unnamed: 0" ∈ a.columns
    · have hda : dropColumn "Unnamed: 0" a
          = Except.ok ⟨a.columns.eraseIdx (rank a.columns "Unnamed: 0"),
            a.rows.map (fun r => r.eraseIdx (rank a.columns "Unnamed: 0"))⟩ := by
        rw [dropColumn, if_pos hA]
      rw [load_data_model, hda]
      show Except.bind (dropColumn "Unnamed: 0" i) _ = _
      rw [hdi]
      rfl
    · have hda : dropColumn "Unnamed: 0" a
          = Except.error (LoadError.missingColumn "Unnamed: 0") := by
        rw [dropColumn, if_neg hA]
      rw [load_data_model, hda]
      rfl
  · intro h1 h2
    exact ⟨⟨_, by rw [dropColumn, if_pos h1]⟩, ⟨_, by rw [dropColumn, if_pos h2]⟩⟩

/-- Witness for C9: concrete tables with and without the `Unnamed: 0`
column, exercising all three branches. -/
theorem load_data_drop_column_failure_witness :
    load_data_model ⟨["article_id"], []⟩ ⟨["Unnamed: 0", "article_id", "email"], []⟩
      = Except.error (LoadError.missingColumn "Unnamed: 0")
    ∧ load_data_model ⟨["Unnamed: 0", "article_id"], []⟩ ⟨["article_id", "email"], []⟩
      = Except.error (LoadError.missingColumn "Unnamed: 0")
    ∧ ((∃ t, dropColumn "Unnamed: 0" ⟨["Unnamed: 0", "article_id"], []⟩ = Except.ok t)
      ∧ (∃ t, dropColumn "Unnamed: 0" ⟨["Unnamed: 0", "article_id", "email"], []⟩
          = Except.ok t)) :=
  ⟨(load_data_drop_column_failure ⟨["article_id"], []⟩
      ⟨["Unnamed: 0", "article_id", "email"], []⟩).1 (by decide),
   (load_data_drop_column_failure ⟨["Unnamed: 0", "article_id"], []⟩
      ⟨["article_id", "email"], []⟩).2.1 (by decide),
   (load_data_drop_column_failure ⟨["Unnamed: 0", "article_id"], []⟩
      ⟨["Unnamed: 0", "article_id", "email"], []⟩).2.2 (by decide) (by decide)⟩

/-- C10: computing the article statistics leaves the interactions table
unchanged (the interactions component of the final state is the input
list, same rows in the same order), even though the articles component is
deduplicated in place; and the interaction-derived outputs — distinct user
count, total interaction count, and the popularity head — are exactly the
corresponding functions of the unmodified interactions table. -/
theorem articles_statistics_preserves_interactions
    (arts : List ArticleRow) (inter : List Interaction) :
    (articles_statistics arts inter).1.2 = inter
    ∧ (articles_statistics arts inter).1.1 = drop_duplicates arts
    ∧ (articles_statistics arts inter).2.number_of_unique_users
        = (uniqueFrom [] (inter.map (fun r => r.user_id))).length
    ∧ (articles_statistics arts inter).2.number_of_user_article_interactions = inter.length
    ∧ (articles_statistics arts inter).2.most_viewed
        = (value_counts (inter.map (fun r => r.article_id))).head? :=
  ⟨rfl, rfl, rfl, rfl, articles_statistics_most_viewed arts inter⟩

end EDA
